import Mathlib

/-!
Shallow embedding of `src/V.py` (class `Viterbi`): an online, memory-bounded
Viterbi decoder over a sparse hidden-state transition graph.

Modelling choices:
* State identifiers are `Nat` (the Python code treats them as opaque
  hashable values).
* Probabilities are `Rat` (the Python code uses floats; all claims here are
  structural, not about rounding).
* Python `dict`s are insertion-ordered association lists `PDict α`:
  lookup returns the first (unique, for genuine dicts) matching key,
  updating an existing key keeps its position, inserting a new key appends,
  `del` removes the key.  This matches CPython 3.7+ dict semantics.
* Python runtime failures are modelled with `Except String`:
  `"KeyError"` for a failed dict lookup and `"IndexError"` for `pop(0)` on
  an empty list, both inside `step`.  Construction never fails: the division
  `1.0 / len(self.hmm)` of the uniform-priors default sits inside the
  per-state loop, which runs zero times on an empty graph.
* The two collaborator functions are supplied per call: `step` receives the
  candidate list `candidates(obs)` and the curried emission function
  `fun s => emission_probability(s, obs)` for the current observation, since
  the observation itself is opaque.
* Mutation of the caller's `path` dict inside `step` (lines 73-76 of
  `V.py`) is made explicit by threading the dict through the loop and
  returning its final value in the `pathF` field of the result; the
  distribution `V` is only ever read by the source, so it is returned
  unchanged in the `vF` field.
-/

/-- A Python dict with `Nat` keys, as an insertion-ordered association list. -/
abbrev PDict (α : Type) := List (Nat × α)

/-- Python `d[k]` as an `Option` (a `none` models a `KeyError` at use sites). -/
def dget {α : Type} (d : PDict α) (k : Nat) : Option α :=
  (d.find? (fun e => e.1 == k)).map Prod.snd

/-- Python `k in d`. -/
def dcontains {α : Type} (d : PDict α) (k : Nat) : Bool :=
  d.any (fun e => e.1 == k)

/-- Python `d[k] = v`: update the entry in place (keeping its position) if
the key exists, else append a new entry at the end. -/
def dinsert {α : Type} (d : PDict α) (k : Nat) (v : α) : PDict α :=
  match d with
  | [] => [(k, v)]
  | e :: rest => if e.1 == k then (k, v) :: rest else e :: dinsert rest k v

/-- Python `del d[k]`. -/
def ddel {α : Type} (d : PDict α) (k : Nat) : PDict α :=
  d.filter (fun e => !(e.1 == k))

/-- The `Viterbi` object from `V.py`: the forward graph `hmm`, the priors,
the configuration, and the reverse index `incoming` built at construction. -/
structure Viterbi where
  hmm : PDict (List (Nat × Rat))
  priors : PDict Rat
  constraint_length : Nat
  smallV : Rat
  incoming : PDict (PDict Rat)
deriving DecidableEq, Inhabited, Repr

/-- The reverse-index construction from `Viterbi.__init__` (lines 29-34):
for every `from_state` and every `(to_state, probability)` in
`hmm[from_state]`, ensure `incoming[to_state]` exists (default `{}`) and set
`incoming[to_state][from_state] = probability`. -/
def buildIncoming (hmm : PDict (List (Nat × Rat))) : PDict (PDict Rat) :=
  hmm.foldl
    (fun inc fe =>
      fe.2.foldl
        (fun inc tp =>
          let inc1 := if dcontains inc tp.1 then inc else dinsert inc tp.1 []
          dinsert inc1 tp.1 (dinsert ((dget inc1 tp.1).getD []) fe.1 tp.2))
        inc)
    []

/-- The Python default `smallV=0.00000000001`. -/
def smallVdefault : Rat := 1 / 100000000000

/-- `Viterbi.__init__` (lines 5-35).  `priors=None` and `priors={}` are both
falsy in Python, so both trigger the uniform default, built by the per-state
loop `self.priors[state] = 1.0 / len(self.hmm)` (lines 23-25); on an empty
graph that loop runs zero times, so the division is never executed and the
priors stay empty.  No validation of the graph is performed and construction
never fails. -/
def mkViterbi (hmm : PDict (List (Nat × Rat))) (priors : Option (PDict Rat))
    (constraint_length : Nat) (smallV : Rat) : Viterbi :=
  let defaultPriors :=
    hmm.foldl (fun pr e => dinsert pr e.1 (1 / (hmm.length : Rat))) []
  { hmm := hmm
    priors := match priors with
              | none => defaultPriors
              | some p => if p = [] then defaultPriors else p
    constraint_length := constraint_length
    smallV := smallV
    incoming := buildIncoming hmm }

/-- `Viterbi.normalize` (lines 87-94): divide by the total mass, or reset to
a copy of the priors when the total mass is exactly zero. -/
def Viterbi.normalize (vit : Viterbi) (V : PDict Rat) : PDict Rat :=
  let sum_prob := (V.map Prod.snd).sum
  if sum_prob = 0 then vit.priors
  else V.map (fun e => (e.1, e.2 / sum_prob))

/-- Lines 54-56 of `step`: iterate the reverse index's predecessors of the
candidate, keeping those present in `V` with strictly positive mass:
`[(f, incoming[to][f]) for f in incoming[to].keys() if f in V and V[f] > 0]`. -/
def predsByIncoming (inc V : PDict Rat) : List (Nat × Rat) :=
  inc.filterMap (fun e =>
    if (dget V e.1).any (fun v => decide (0 < v)) then
      (dget inc e.1).map (fun p => (e.1, p))
    else none)

/-- Lines 59-60 of `step`: iterate the states of `V`, keeping those that are
predecessors of the candidate:
`[(f, incoming[to][f]) for f in V if f in incoming[to]]` (no positivity
filter on this branch). -/
def predsByV (inc V : PDict Rat) : List (Nat × Rat) :=
  V.filterMap (fun e =>
    if dcontains inc e.1 then (dget inc e.1).map (fun p => (e.1, p)) else none)

/-- Lines 64-68 of `step`: map each `(from_state, p)` to
`(V[from_state] * emission_probability * p, from_state)`; the `V[...]`
lookup is a dict access, so a missing key is a `KeyError`. -/
def fromProbs (V : PDict Rat) (e : Rat) : List (Nat × Rat) →
    Except String (List (Rat × Nat))
  | [] => .ok []
  | fp :: rest =>
    match dget V fp.1 with
    | none => .error "KeyError"
    | some v =>
      match fromProbs V e rest with
      | .error err => .error err
      | .ok l => .ok ((v * e * fp.2, fp.1) :: l)

/-- Python `max(l, key=itemgetter(0))`: the first element with the maximal
first component (Python's `max` keeps the current maximum on ties). -/
def maxByFst : List (Rat × Nat) → (Rat × Nat)
  | [] => (0, 0)
  | x :: xs => xs.foldl (fun acc y => if acc.1 < y.1 then y else acc) x

/-- Accumulator of the candidate loop of `step`: `(new_V, new_path, path)`,
where `path` is the caller's (mutated-in-place) path table. -/
abbrev LoopAcc := PDict Rat × PDict (List Nat) × PDict (List Nat)

/-- One iteration of the candidate loop of `step` (lines 50-77) for a single
`(to_state, emission_probability)` pair. -/
def stepBody (vit : Viterbi) (V : PDict Rat) (te : Nat × Rat) (acc : LoopAcc) :
    Except String LoopAcc :=
  match acc with
  | (newV, newPath, path) =>
    -- line 53: `self.incoming[to_state]` raises KeyError when absent
    match dget vit.incoming te.1 with
    | none => .error "KeyError"
    | some inc =>
      let nonzero_incoming :=
        if inc.length < V.length then predsByIncoming inc V else predsByV inc V
      match fromProbs V te.2 nonzero_incoming with
      | .error err => .error err
      | .ok from_probs =>
        if 0 < from_probs.length then
          let best := maxByFst from_probs
          let newV1 := dinsert newV te.1 best.1
          let max_from := best.2
          -- line 73-74: `if max_from not in path: path[max_from] = []`
          let path1 := if dcontains path max_from then path
                       else dinsert path max_from []
          let pl := (dget path1 max_from).getD []
          -- line 75-76: `if len(path[max_from]) == constraint_length:
          --               path[max_from].pop(0)`
          if pl.length = vit.constraint_length then
            match pl with
            | [] => .error "IndexError"
            | _ :: plt =>
              .ok (newV1, dinsert newPath te.1 (plt ++ [te.1]),
                   dinsert path1 max_from plt)
          else
            .ok (newV1, dinsert newPath te.1 (pl ++ [te.1]), path1)
        else
          .ok (newV, newPath, path)

/-- The candidate loop of `step` over `nonzero_eps`. -/
def stepLoop (vit : Viterbi) (V : PDict Rat) :
    List (Nat × Rat) → LoopAcc → Except String LoopAcc
  | [], acc => .ok acc
  | te :: rest, acc =>
    match stepBody vit V te acc with
    | .error e => .error e
    | .ok acc1 => stepLoop vit V rest acc1

/-- What `Viterbi.step` hands back: the returned pair `(new_V, new_path)`
plus the final states of the two argument dicts (`path` is mutated in place
by the source; `V` is only read). -/
structure StepResult where
  newV : PDict Rat
  newPath : PDict (List Nat)
  pathF : PDict (List Nat)
  vF : PDict Rat
deriving DecidableEq, Inhabited, Repr

/-- `Viterbi.step` (lines 37-85).  `candidates` is the value of
`self.candidate_states(obs)` and `em` the function
`fun s => self.emission_probability(s, obs)` for the current observation. -/
def Viterbi.step (vit : Viterbi) (candidates : List Nat) (em : Nat → Rat)
    (V0 : Option (PDict Rat)) (path : PDict (List Nat)) :
    Except String StepResult :=
  -- line 41-42: `if V is None: V = dict(self.priors)`
  let V := V0.getD vit.priors
  let state_eps := candidates.map (fun c => (c, em c))
  let nonzero_eps := state_eps.filter (fun se => decide (0 < se.2))
  match stepLoop vit V nonzero_eps ([], [], path) with
  | .error e => .error e
  | .ok (newV, newPath, pathF) =>
    let newV1 := vit.normalize newV
    -- line 79: `small = list(filter(lambda x: new_V[x] < smallV, new_V))`
    let small := (newV1.map Prod.fst).filter
      (fun s => (dget newV1 s).any (fun v => decide (v < vit.smallV)))
    -- lines 80-84: delete each small state from new_V, and from new_path
    -- when present
    let newV2 := small.foldl ddel newV1
    let newPath2 := small.foldl
      (fun np s => if dcontains np s then ddel np s else np) newPath
    .ok ⟨newV2, newPath2, pathF, V⟩

/-- Decidable equality on `Except`, so concrete runs of `step` and
`mkViterbi` can be checked by `decide`. -/
instance {e a : Type} [DecidableEq e] [DecidableEq a] : DecidableEq (Except e a)
  | .error x, .error y =>
    if h : x = y then .isTrue (h ▸ rfl)
    else .isFalse (fun hh => h (Except.error.inj hh))
  | .error _, .ok _ => .isFalse (fun hh => Except.noConfusion hh)
  | .ok _, .error _ => .isFalse (fun hh => Except.noConfusion hh)
  | .ok x, .ok y =>
    if h : x = y then .isTrue (h ▸ rfl)
    else .isFalse (fun hh => h (Except.ok.inj hh))

/-- Modelled from the spec (section 4.2, step 5): the path-extension rule.
`op` is the path recorded for the winning predecessor before the step began
(`none` when it has no entry, treated as the empty path): if it already has
exactly `cl` elements, drop its oldest element, then append the new state. -/
def specPathExtension (cl : Nat) (op : Option (List Nat)) (toState : Nat) :
    List Nat :=
  (if (op.getD []).length = cl then (op.getD []).tail else op.getD []) ++ [toState]

/-- How `step` may change the caller's `path` dict between two points in
time: any key is either untouched, freshly inserted with `[]`, or had its
oldest element popped (only when it was exactly at the window length). -/
def pathEvol (cl : Nat) (p0 pF : PDict (List Nat)) : Prop :=
  ∀ s, dget pF s = dget p0 s ∨
    (dget p0 s = none ∧ dget pF s = some []) ∨
    (∃ l, dget p0 s = some l ∧ l.length = cl ∧ l ≠ [] ∧ dget pF s = some l.tail)

/-- Every entry of the accumulated `new_path` is the spec's path-extension
rule applied to some pre-step path. -/
def SpecPaths (cl : Nat) (p0 : PDict (List Nat)) (nP : PDict (List Nat)) : Prop :=
  ∀ t l, dget nP t = some l → ∃ f, l = specPathExtension cl (dget p0 f) t

/-- All recorded paths have length at most `cl`. -/
def LenBound (cl : Nat) (d : PDict (List Nat)) : Prop :=
  ∀ s l, dget d s = some l → l.length ≤ cl

/-- A one-state self-loop graph with default configuration, used as the
concrete instance in several witnesses. -/
def vitLoop : Viterbi :=
  mkViterbi [(0, [(0, 1)])] none 10 smallVdefault

/-- A graph in which state `0` has no incoming edges (every edge points to
state `1`), so the reverse index has no entry for `0`. -/
def vitNoInc : Viterbi :=
  mkViterbi [(0, [(1, 1)]), (1, [(1, 1)])] none 10 smallVdefault

/-- A two-state cycle whose caller-supplied priors cover only state `0`. -/
def vitPriors0 : Viterbi :=
  mkViterbi [(0, [(1, 1)]), (1, [(0, 1)])] (some [(0, 1)]) 10 smallVdefault

/-- A two-state cycle whose caller-supplied priors give state `0` a mass
below the default small-probability floor `1e-11`. -/
def vitTinyPrior : Viterbi :=
  mkViterbi [(0, [(1, 1)]), (1, [(0, 1)])]
    (some [(0, 1/1000000000000), (1, 999999999999/1000000000000)]) 10
    smallVdefault

/-- A one-state self-loop graph configured with `constraint_length = 0`. -/
def vitZeroWindow : Viterbi :=
  mkViterbi [(0, [(0, 1)])] none 0 smallVdefault

-- Concrete evaluation of the embedding goes through `Rat` arithmetic, whose
-- operations are irreducible by default; make them reducible so the kernel
-- can evaluate closed runs of `step`.
attribute [local semireducible] Rat.mul Rat.add Rat.inv Rat.sub

/-! ### Basic lemmas about the dict model -/

theorem dget_cons {α : Type} (e : Nat × α) (d : PDict α) (k : Nat) :
    dget (e :: d) k = if e.1 = k then some e.2 else dget d k := by
  by_cases h : e.1 = k
  · simp [dget, h]
  · simp [dget, h]

theorem dcontains_eq {α : Type} (d : PDict α) (k : Nat) :
    dcontains d k = (dget d k).isSome := by
  induction d with
  | nil => rfl
  | cons e d ih =>
    by_cases h : e.1 = k
    · simp [dcontains, dget_cons, h]
    · simp only [dcontains, List.any_cons] at ih ⊢
      simp [dget_cons, h, ih]

theorem dget_dinsert {α : Type} (d : PDict α) (k : Nat) (v : α) (k' : Nat) :
    dget (dinsert d k v) k' = if k' = k then some v else dget d k' := by
  induction d with
  | nil =>
    by_cases h : k' = k
    · simp [dinsert, dget_cons, h]
    · have h2 : ¬ k = k' := fun hh => h hh.symm
      simp [dinsert, dget_cons, h, h2, dget]
  | cons e rest ih =>
    by_cases he : e.1 = k
    · simp only [dinsert, he, beq_self_eq_true, if_true]
      by_cases h : k' = k
      · simp [dget_cons, h]
      · have h2 : ¬ k = k' := fun hh => h hh.symm
        simp [dget_cons, h, h2, he]
    · have hb : (e.1 == k) = false := by simp [he]
      simp only [dinsert, hb, Bool.false_eq_true, if_false]
      by_cases he' : e.1 = k'
      · have h : ¬ k' = k := fun hh => he (he' ▸ hh ▸ rfl)
        simp [dget_cons, he', h]
      · simp [dget_cons, he', ih]

theorem dget_ddel {α : Type} (d : PDict α) (k : Nat) (k' : Nat) :
    dget (ddel d k) k' = if k' = k then none else dget d k' := by
  induction d with
  | nil => by_cases h : k' = k <;> simp [ddel, dget, h]
  | cons e rest ih =>
    by_cases he : e.1 = k
    · simp only [ddel, List.filter_cons, he, beq_self_eq_true, Bool.not_true,
        Bool.false_eq_true, if_false] at ih ⊢
      by_cases h : k' = k
      · rw [if_pos h] at ih ⊢; exact ih
      · rw [if_neg h] at ih ⊢
        rw [dget_cons, if_neg (show ¬ e.1 = k' from he ▸ fun hh => h hh.symm)]
        exact ih
    · have hb : (!(e.1 == k)) = true := by simp [he]
      simp only [ddel, List.filter_cons, hb, if_true] at ih ⊢
      by_cases he' : e.1 = k'
      · have h : ¬ k' = k := fun hh => he (he' ▸ hh ▸ rfl)
        simp [dget_cons, he', h]
      · simp [dget_cons, he', ih]

theorem mem_of_dget {α : Type} {d : PDict α} {k : Nat} {v : α}
    (h : dget d k = some v) : (k, v) ∈ d := by
  unfold dget at h
  cases hf : d.find? (fun e => e.1 == k) with
  | none => simp [hf] at h
  | some e =>
    rw [hf] at h
    simp only [Option.map_some'] at h
    have hm := List.mem_of_find?_eq_some hf
    have hp := List.find?_some hf
    simp only [beq_iff_eq] at hp
    have hkv : (k, v) = e := by
      obtain ⟨a, b⟩ := e
      simp only at hp h
      have hbv : b = v := Option.some.inj h
      rw [hp, hbv]
    rw [hkv]; exact hm

theorem dget_isSome_of_mem {α : Type} {d : PDict α} {k : Nat} {v : α}
    (h : (k, v) ∈ d) : (dget d k).isSome := by
  unfold dget
  cases hf : d.find? (fun e => e.1 == k) with
  | some e => simp
  | none =>
    rw [List.find?_eq_none] at hf
    exact absurd (by simp : (((k, v).1 == k)) = true) (hf (k, v) h)

theorem dget_of_mem_nodup {α : Type} {d : PDict α} {k : Nat} {v : α}
    (hnd : (d.map Prod.fst).Nodup) (h : (k, v) ∈ d) : dget d k = some v := by
  induction d with
  | nil => simp at h
  | cons e rest ih =>
    simp only [List.map_cons, List.nodup_cons] at hnd
    rcases List.mem_cons.mp h with h | h
    · rw [← h]; simp [dget_cons]
    · have hk : e.1 ≠ k := by
        intro he
        exact hnd.1 (he ▸ (List.mem_map.mpr ⟨(k, v), h, rfl⟩))
      rw [dget_cons, if_neg hk]
      exact ih hnd.2 h

theorem stepBody_ok_cases {vit : Viterbi} {V : PDict Rat} {te : Nat × Rat}
    {newV : PDict Rat} {newPath path : PDict (List Nat)} {acc' : LoopAcc}
    (h : stepBody vit V te (newV, newPath, path) = .ok acc') :
    acc' = (newV, newPath, path) ∨
    ∃ (mp : Rat) (mf : Nat) (path1 : PDict (List Nat)) (pl : List Nat),
      path1 = (if dcontains path mf then path else dinsert path mf []) ∧
      pl = (dget path1 mf).getD [] ∧
      ((pl.length = vit.constraint_length ∧ pl ≠ [] ∧
        acc' = (dinsert newV te.1 mp, dinsert newPath te.1 (pl.tail ++ [te.1]),
                dinsert path1 mf pl.tail)) ∨
       (pl.length ≠ vit.constraint_length ∧
        acc' = (dinsert newV te.1 mp, dinsert newPath te.1 (pl ++ [te.1]), path1))) := by
  simp only [stepBody] at h
  split at h
  · cases h
  · split at h
    · cases h
    · rename_i fps hfps
      split at h
      · -- 0 < from_probs.length
        rename_i hlt
        split at h
        · -- dcontains path mf = true, so path1 = path
          rename_i hcont
          split at h
          · -- pl.length = constraint_length
            rename_i hlen
            split at h
            · cases h
            · rename_i hd plt heq
              right
              refine ⟨(maxByFst fps).1, (maxByFst fps).2, path,
                (dget path (maxByFst fps).2).getD [], by simp [hcont], rfl, ?_⟩
              left
              rw [heq]
              refine ⟨by rw [← heq]; exact hlen, by simp, ?_⟩
              rw [← (Except.ok.inj h)]
              simp
          · -- pl.length ≠ constraint_length
            rename_i hlen
            right
            refine ⟨(maxByFst fps).1, (maxByFst fps).2, path,
              (dget path (maxByFst fps).2).getD [], by simp [hcont], rfl, ?_⟩
            right
            exact ⟨hlen, (Except.ok.inj h).symm⟩
        · -- dcontains path mf = false, so path1 = dinsert path mf []
          rename_i hcont
          split at h
          · rename_i hlen
            split at h
            · cases h
            · rename_i hd plt heq
              right
              refine ⟨(maxByFst fps).1, (maxByFst fps).2, dinsert path (maxByFst fps).2 [],
                (dget (dinsert path (maxByFst fps).2 []) (maxByFst fps).2).getD [],
                by simp [hcont], rfl, ?_⟩
              left
              rw [heq]
              refine ⟨by rw [← heq]; exact hlen, by simp, ?_⟩
              rw [← (Except.ok.inj h)]
              simp
          · rename_i hlen
            right
            refine ⟨(maxByFst fps).1, (maxByFst fps).2, dinsert path (maxByFst fps).2 [],
              (dget (dinsert path (maxByFst fps).2 []) (maxByFst fps).2).getD [],
              by simp [hcont], rfl, ?_⟩
            right
            exact ⟨hlen, (Except.ok.inj h).symm⟩
      · left
        exact (Except.ok.inj h).symm

theorem stepLoop_inv (vit : Viterbi) (V : PDict Rat) (P : LoopAcc → Prop)
    (hbody : ∀ te acc acc', stepBody vit V te acc = .ok acc' → P acc → P acc')
    (eps : List (Nat × Rat)) :
    ∀ acc acc', stepLoop vit V eps acc = .ok acc' → P acc → P acc' := by
  induction eps with
  | nil =>
    intro acc acc' h hP
    simp only [stepLoop] at h
    exact (Except.ok.inj h) ▸ hP
  | cons te rest ih =>
    intro acc acc' h hP
    simp only [stepLoop] at h
    cases hb : stepBody vit V te acc with
    | error e => rw [hb] at h; cases h
    | ok acc1 =>
      rw [hb] at h
      exact ih acc1 acc' h (hbody te acc acc1 hb hP)

theorem pathEvol_update {cl : Nat} {p0 p q : PDict (List Nat)} (s0 : Nat)
    (hEv : pathEvol cl p0 p) (hne : ∀ s, s ≠ s0 → dget q s = dget p s)
    (h0 : dget q s0 = dget p0 s0 ∨
      (dget p0 s0 = none ∧ dget q s0 = some []) ∨
      (∃ l, dget p0 s0 = some l ∧ l.length = cl ∧ l ≠ [] ∧
        dget q s0 = some l.tail)) :
    pathEvol cl p0 q := by
  intro s
  by_cases hs : s = s0
  · subst hs; exact h0
  · rcases hEv s with h1 | h2 | ⟨l, a, b, c, d⟩
    · left; rw [hne s hs, h1]
    · right; left; exact ⟨h2.1, by rw [hne s hs, h2.2]⟩
    · right; right; exact ⟨l, a, b, c, by rw [hne s hs, d]⟩

theorem stepBody_paths (vit : Viterbi) (V : PDict Rat) (p0 : PDict (List Nat))
    (te : Nat × Rat) (acc acc' : LoopAcc)
    (hb : stepBody vit V te acc = .ok acc')
    (hP : pathEvol vit.constraint_length p0 acc.2.2 ∧
          SpecPaths vit.constraint_length p0 acc.2.1) :
    pathEvol vit.constraint_length p0 acc'.2.2 ∧
    SpecPaths vit.constraint_length p0 acc'.2.1 := by
  obtain ⟨nV, nP, p⟩ := acc
  obtain ⟨hEv, hSp⟩ := hP
  rcases stepBody_ok_cases hb with hid | ⟨mp, mf, path1, pl, hp1, hpl, hcase⟩
  · rw [hid]; exact ⟨hEv, hSp⟩
  · have hne_get : ∀ s, s ≠ mf → dget path1 s = dget p s := by
      intro s hs
      rw [hp1]; split
      · rfl
      · rw [dget_dinsert, if_neg hs]
    have hself : (∃ l0, dget p mf = some l0 ∧ dget path1 mf = some l0) ∨
        (dget p mf = none ∧ dget path1 mf = some []) := by
      rw [hp1]
      by_cases hc : dcontains p mf
      · rw [if_pos hc]
        rw [dcontains_eq] at hc
        cases hd : dget p mf with
        | none => rw [hd] at hc; simp at hc
        | some l0 => exact Or.inl ⟨l0, rfl, rfl⟩
      · rw [if_neg hc]
        rw [dcontains_eq] at hc
        cases hd : dget p mf with
        | none => exact Or.inr ⟨rfl, by rw [dget_dinsert]; simp⟩
        | some l0 => rw [hd] at hc; simp at hc
    rcases hcase with ⟨hlen, hnemp, hacc⟩ | ⟨hlen, hacc⟩
    · -- pop case
      -- the pre-step path of mf must be exactly pl (full-length, nonempty)
      have hpm : dget p mf = some pl := by
        rcases hself with ⟨l0, hl0, hl0b⟩ | ⟨hn, hs⟩
        · rw [hpl, hl0b]; simpa using hl0
        · exfalso; apply hnemp; rw [hpl, hs]; rfl
      have hp0 : dget p0 mf = some pl := by
        rcases hEv mf with h1 | ⟨h2a, h2b⟩ | ⟨l, h3a, h3b, h3c, h3d⟩
        · rw [← h1]; exact hpm
        · rw [hpm] at h2b
          exact absurd (Option.some.inj h2b) hnemp
        · exfalso
          rw [hpm] at h3d
          have hplt : pl = l.tail := Option.some.inj h3d
          have e1 : l.tail.length = l.length - 1 := List.length_tail l
          have e2 : 0 < l.length := List.length_pos.mpr h3c
          have e3 : pl.length = l.tail.length := by rw [hplt]
          omega
      subst hacc
      constructor
      · -- path evolution for dinsert path1 mf pl.tail
        refine pathEvol_update mf hEv (fun s hs => ?_) ?_
        · show dget (dinsert path1 mf pl.tail) s = dget p s
          rw [dget_dinsert, if_neg hs, hne_get s hs]
        · right; right
          exact ⟨pl, hp0, hlen, hnemp, by rw [dget_dinsert, if_pos rfl]⟩
      · -- spec paths for dinsert nP te.1 (pl.tail ++ [te.1])
        intro t l' ht
        show ∃ f, l' = specPathExtension vit.constraint_length (dget p0 f) t
        rw [show ((dinsert nV te.1 mp, dinsert nP te.1 (pl.tail ++ [te.1]),
            dinsert path1 mf pl.tail) : LoopAcc).2.1 =
            dinsert nP te.1 (pl.tail ++ [te.1]) from rfl] at ht
        rw [dget_dinsert] at ht
        by_cases hteq : t = te.1
        · rw [if_pos hteq] at ht
          subst hteq
          refine ⟨mf, ?_⟩
          rw [← Option.some.inj ht]
          rw [specPathExtension, hp0]
          simp [hlen]
        · rw [if_neg hteq] at ht
          exact hSp t l' ht
    · -- no-pop case
      subst hacc
      constructor
      · refine pathEvol_update mf hEv (fun s hs => ?_) ?_
        · show dget path1 s = dget p s
          exact hne_get s hs
        · show dget path1 mf = dget p0 mf ∨ _
          rcases hself with ⟨l0, hl0, hl0b⟩ | ⟨hn, hsm⟩
          · rcases hEv mf with h1 | ⟨h2a, h2b⟩ | ⟨l, h3a, h3b, h3c, h3d⟩
            · left; rw [hl0b, ← h1, hl0]
            · right; left; exact ⟨h2a, by rw [hl0b, ← h2b, hl0]⟩
            · right; right; exact ⟨l, h3a, h3b, h3c, by rw [hl0b, ← h3d, hl0]⟩
          · rcases hEv mf with h1 | ⟨h2a, h2b⟩ | ⟨l, h3a, h3b, h3c, h3d⟩
            · right; left; exact ⟨by rw [← h1]; exact hn, hsm⟩
            · rw [hn] at h2b; cases h2b
            · rw [hn] at h3d; cases h3d
      · intro t l' ht
        show ∃ f, l' = specPathExtension vit.constraint_length (dget p0 f) t
        rw [show ((dinsert nV te.1 mp, dinsert nP te.1 (pl ++ [te.1]),
            path1) : LoopAcc).2.1 = dinsert nP te.1 (pl ++ [te.1]) from rfl] at ht
        rw [dget_dinsert] at ht
        by_cases hteq : t = te.1
        · rw [if_pos hteq] at ht
          refine ⟨mf, ?_⟩
          rw [← Option.some.inj ht]
          subst hteq
          rcases hself with ⟨l0, hl0, hl0b⟩ | ⟨hn, hsm⟩
          · have hpleq : pl = l0 := by rw [hpl, hl0b]; rfl
            subst hpleq
            rcases hEv mf with h1 | ⟨h2a, h2b⟩ | ⟨l, h3a, h3b, h3c, h3d⟩
            · rw [specPathExtension, ← h1, hl0]
              simp [hlen]
            · rw [hl0] at h2b
              have : pl = [] := Option.some.inj h2b
              subst this
              rw [specPathExtension, h2a]
              simp
            · rw [hl0] at h3d
              have : pl = l.tail := Option.some.inj h3d
              subst this
              rw [specPathExtension, h3a]
              simp [h3b]
          · have hpleq : pl = [] := by rw [hpl, hsm]; rfl
            subst hpleq
            rcases hEv mf with h1 | ⟨h2a, h2b⟩ | ⟨l, h3a, h3b, h3c, h3d⟩
            · rw [specPathExtension, ← h1, hn]
              simp
            · rw [hn] at h2b; cases h2b
            · rw [hn] at h3d; cases h3d
        · rw [if_neg hteq] at ht
          exact hSp t l' ht

theorem stepBody_lenBound (vit : Viterbi) (V : PDict Rat)
    (te : Nat × Rat) (acc acc' : LoopAcc)
    (hb : stepBody vit V te acc = .ok acc')
    (hP : LenBound vit.constraint_length acc.2.2 ∧
          LenBound vit.constraint_length acc.2.1) :
    LenBound vit.constraint_length acc'.2.2 ∧
    LenBound vit.constraint_length acc'.2.1 := by
  obtain ⟨nV, nP, p⟩ := acc
  obtain ⟨hp, hnp⟩ := hP
  rcases stepBody_ok_cases hb with hid | ⟨mp, mf, path1, pl, hp1, hpl, hcase⟩
  · rw [hid]; exact ⟨hp, hnp⟩
  · have hb1 : LenBound vit.constraint_length path1 := by
      intro s l h
      rw [hp1] at h
      split at h
      · exact hp s l h
      · rw [dget_dinsert] at h
        split at h
        · have hl : l = [] := (Option.some.inj h).symm
          subst hl; simp
        · exact hp s l h
    have hplb : pl.length ≤ vit.constraint_length := by
      cases hg : dget path1 mf with
      | none => rw [hpl, hg]; simp
      | some l0 =>
        have hlb := hb1 mf l0 hg
        rw [hpl, hg]; simpa
    rcases hcase with ⟨hlen, hnemp, hacc⟩ | ⟨hlen, hacc⟩
    · subst hacc
      have htl : pl.tail.length = pl.length - 1 := List.length_tail pl
      have hpos : 0 < pl.length := List.length_pos.mpr hnemp
      constructor
      · show LenBound vit.constraint_length (dinsert path1 mf pl.tail)
        intro s l h
        rw [dget_dinsert] at h
        split at h
        · have hl : l = pl.tail := (Option.some.inj h).symm
          subst hl; omega
        · exact hb1 s l h
      · show LenBound vit.constraint_length (dinsert nP te.1 (pl.tail ++ [te.1]))
        intro s l h
        rw [dget_dinsert] at h
        split at h
        · have hl : l = pl.tail ++ [te.1] := (Option.some.inj h).symm
          subst hl
          simp only [List.length_append, List.length_cons, List.length_nil]
          omega
        · exact hnp s l h
    · subst hacc
      constructor
      · show LenBound vit.constraint_length path1
        exact hb1
      · show LenBound vit.constraint_length (dinsert nP te.1 (pl ++ [te.1]))
        intro s l h
        rw [dget_dinsert] at h
        split at h
        · have hl : l = pl ++ [te.1] := (Option.some.inj h).symm
          subst hl
          simp only [List.length_append, List.length_cons, List.length_nil]
          omega
        · exact hnp s l h

/-- Deleting pruned keys from `new_path` (lines 80-84) only removes entries. -/
theorem dget_prune_subset (ks : List Nat) :
    ∀ (np : PDict (List Nat)) (s : Nat) (l : List Nat),
      dget (ks.foldl (fun np s => if dcontains np s then ddel np s else np) np) s
        = some l →
      dget np s = some l := by
  induction ks with
  | nil => intro np s l h; exact h
  | cons k ks ih =>
    intro np s l h
    simp only [List.foldl_cons] at h
    have h2 := ih _ s l h
    by_cases hc : dcontains np k
    · rw [if_pos hc, dget_ddel] at h2
      split at h2
      · cases h2
      · exact h2
    · rw [if_neg hc] at h2
      exact h2

/-- Unpacks a successful `step` call into its loop result and the pruning
stage. -/
theorem step_ok_loop {vit : Viterbi} {candidates : List Nat} {em : Nat → Rat}
    {V0 : Option (PDict Rat)} {path : PDict (List Nat)} {r : StepResult}
    (h : vit.step candidates em V0 path = .ok r) :
    ∃ nV nP pF,
      stepLoop vit (V0.getD vit.priors)
        ((candidates.map (fun c => (c, em c))).filter (fun se => decide (0 < se.2)))
        ([], [], path) = .ok (nV, nP, pF) ∧
      r = ⟨(((vit.normalize nV).map Prod.fst).filter
              (fun s => (dget (vit.normalize nV) s).any
                (fun v => decide (v < vit.smallV)))).foldl ddel (vit.normalize nV),
           (((vit.normalize nV).map Prod.fst).filter
              (fun s => (dget (vit.normalize nV) s).any
                (fun v => decide (v < vit.smallV)))).foldl
             (fun np s => if dcontains np s then ddel np s else np) nP,
           pF, V0.getD vit.priors⟩ := by
  simp only [Viterbi.step] at h
  split at h
  · cases h
  · rename_i nV nP pF heq
    exact ⟨nV, nP, pF, heq, (Except.ok.inj h).symm⟩

theorem foldl_ddel_eq_filter {α : Type} (ks : List Nat) :
    ∀ d : PDict α, ks.foldl ddel d = d.filter (fun e => !(ks.contains e.1)) := by
  induction ks with
  | nil =>
    intro d
    simp only [List.foldl_nil]
    exact (List.filter_true d).symm
  | cons k ks ih =>
    intro d
    simp only [List.foldl_cons]
    rw [ih (ddel d k), ddel, List.filter_filter]
    apply List.filter_congr
    intro e he
    by_cases h : e.1 = k <;> simp [List.contains_cons, Bool.and_comm, h]

theorem small_contains_eq {d : PDict Rat} {sv : Rat}
    (hnd : (d.map Prod.fst).Nodup) :
    ∀ e ∈ d,
      ((d.map Prod.fst).filter
        (fun s => (dget d s).any (fun v => decide (v < sv)))).contains e.1
        = decide (e.2 < sv) := by
  intro e he
  have hget : dget d e.1 = some e.2 :=
    dget_of_mem_nodup hnd (show (e.1, e.2) ∈ d from he)
  by_cases hlt : e.2 < sv
  · have hd : decide (e.2 < sv) = true := by simpa
    rw [hd]
    have hm : e.1 ∈ (d.map Prod.fst).filter
        (fun s => (dget d s).any (fun v => decide (v < sv))) := by
      rw [List.mem_filter]
      refine ⟨List.mem_map.mpr ⟨e, he, rfl⟩, ?_⟩
      rw [hget]
      simpa
    exact List.elem_eq_true_of_mem hm
  · have hd : decide (e.2 < sv) = false := by simpa using hlt
    rw [hd]
    by_contra hc
    rw [Bool.not_eq_false] at hc
    have hm := (List.elem_iff).mp hc
    rw [List.mem_filter] at hm
    have := hm.2
    rw [hget] at this
    simp at this
    exact hlt this

theorem foldl_pathdel_nil (ks : List Nat) :
    ks.foldl (fun (np : PDict (List Nat)) s =>
      if dcontains np s then ddel np s else np) [] = [] := by
  induction ks with
  | nil => rfl
  | cons k ks ih =>
    simp only [List.foldl_cons, dcontains, List.any_nil, Bool.false_eq_true,
      if_false]
    exact ih

theorem fromProbs_total (V : PDict Rat) (ep : Rat) :
    ∀ l : List (Nat × Rat), (∀ fp ∈ l, (dget V fp.1).isSome = true) →
      ∃ out, fromProbs V ep l = .ok out := by
  intro l
  induction l with
  | nil => intro h; exact ⟨[], rfl⟩
  | cons fp rest ih =>
    intro h
    obtain ⟨v, hv⟩ := Option.isSome_iff_exists.mp (h fp (List.mem_cons_self _ _))
    obtain ⟨out, hout⟩ := ih (fun x hx => h x (List.mem_cons_of_mem _ hx))
    exact ⟨(v * ep * fp.2, fp.1) :: out, by simp only [fromProbs, hv, hout]⟩

theorem stepBody_total (vit : Viterbi) (V : PDict Rat) (te : Nat × Rat)
    (acc : LoopAcc) (hcl : 1 ≤ vit.constraint_length)
    (hinc : (dget vit.incoming te.1).isSome = true) :
    ∃ acc', stepBody vit V te acc = .ok acc' := by
  obtain ⟨nV, nP, p⟩ := acc
  obtain ⟨inc, hg⟩ := Option.isSome_iff_exists.mp hinc
  have hmem : ∀ fp ∈ (if inc.length < V.length then predsByIncoming inc V
      else predsByV inc V), (dget V fp.1).isSome = true := by
    intro fp hfp2
    split at hfp2
    · rw [predsByIncoming, List.mem_filterMap] at hfp2
      obtain ⟨e, he, heq⟩ := hfp2
      by_cases h0 : (dget V e.1).any (fun v => decide (0 < v)) = true
      · rw [if_pos h0] at heq
        cases hi : dget inc e.1 with
        | none => rw [hi] at heq; cases heq
        | some q =>
          rw [hi] at heq
          simp only [Option.map_some'] at heq
          have hpair : (e.1, q) = fp := Option.some.inj heq
          have hf : e.1 = fp.1 := by rw [← hpair]
          rw [← hf]
          cases hv : dget V e.1 with
          | none => rw [hv] at h0; cases h0
          | some v => rfl
      · rw [if_neg h0] at heq; cases heq
    · rw [predsByV, List.mem_filterMap] at hfp2
      obtain ⟨e, he, heq⟩ := hfp2
      by_cases hc : dcontains inc e.1
      · rw [if_pos hc] at heq
        cases hi : dget inc e.1 with
        | none => rw [hi] at heq; cases heq
        | some q =>
          rw [hi] at heq
          simp only [Option.map_some'] at heq
          have hpair : (e.1, q) = fp := Option.some.inj heq
          have hf : e.1 = fp.1 := by rw [← hpair]
          rw [← hf]
          exact dget_isSome_of_mem (show (e.1, e.2) ∈ V from he)
      · rw [if_neg hc] at heq; cases heq
  obtain ⟨out, hout⟩ := fromProbs_total V te.2 _ hmem
  simp only [stepBody, hg, hout]
  by_cases h1 : 0 < out.length
  · rw [if_pos h1]
    by_cases h2 : ((dget (if dcontains p (maxByFst out).2 then p
        else dinsert p (maxByFst out).2 []) (maxByFst out).2).getD []).length
        = vit.constraint_length
    · rw [if_pos h2]
      cases hE : (dget (if dcontains p (maxByFst out).2 then p
          else dinsert p (maxByFst out).2 []) (maxByFst out).2).getD [] with
      | nil =>
        exfalso
        rw [hE] at h2
        simp at h2
        omega
      | cons hd tl => exact ⟨_, rfl⟩
    · rw [if_neg h2]
      exact ⟨_, rfl⟩
  · rw [if_neg h1]
    exact ⟨_, rfl⟩

theorem stepLoop_total (vit : Viterbi) (V : PDict Rat)
    (hcl : 1 ≤ vit.constraint_length) :
    ∀ (eps : List (Nat × Rat)) (acc : LoopAcc),
      (∀ te ∈ eps, (dget vit.incoming te.1).isSome = true) →
      ∃ acc', stepLoop vit V eps acc = .ok acc' := by
  intro eps
  induction eps with
  | nil => intro acc h; exact ⟨acc, rfl⟩
  | cons te rest ih =>
    intro acc h
    obtain ⟨acc1, hb⟩ := stepBody_total vit V te acc hcl
      (h te (List.mem_cons_self _ _))
    obtain ⟨acc', hrest⟩ := ih acc1 (fun x hx => h x (List.mem_cons_of_mem _ hx))
    exact ⟨acc', by simp only [stepLoop, hb, hrest]⟩

/-- C1: the claim says `step` handles a positive-emission candidate with no
incoming edges gracefully (no new score, normal return).  The code instead
raises `KeyError` at `self.incoming[to_state]` (line 53), because
`__init__` creates no reverse-index entry for a state without incoming
edges: state `0` below has unit emission and no incoming edges, and `step`
fails. -/
theorem step_keyerror_no_incoming :
    dget vitNoInc.incoming 0 = none ∧
    vitNoInc.step [0] (fun _ => 1) none [] = .error "KeyError" := by
  constructor
  · decide
  · decide

/-- C2: the claim says every key of the returned path table is a key of the
returned distribution, even when the priors-reset fires.  With priors
`{0: 1}` and input distribution `{0: 0.0}`, candidate `1` wins predecessor
`0` with score `0`, the normalizer resets to the priors, and the returned
pair has path key `1` but no distribution key `1`. -/
theorem step_path_key_not_in_distribution :
    (vitPriors0.step [0, 1] (fun _ => 1) (some [(0, 0)]) []).map
      (fun r => (dcontains r.newPath 1, dcontains r.newV 1)) = .ok (true, false) := by
  decide

/-- C3 counterexample: `step` does mutate the caller's path table.  On a
self-loop graph with an empty input path table, line 74 inserts the winning
predecessor into the caller's dict, which ends as `{0: []}` instead of the
empty dict that was passed in. -/
theorem c3_counterexample :
    (vitLoop.step [0] (fun _ => 1) none []).map (fun r => r.pathF)
      = .ok [(0, [])] ∧ ([(0, [])] : PDict (List Nat)) ≠ [] := by
  constructor
  · decide
  · decide

/-- C3 (amended): `step` returns a fresh pair and never removes a key from
the caller's path table or grows one of its entries, but it does mutate the
table in exactly two bounded ways: a winning predecessor absent from the
table gets an empty path inserted (line 74), and a winning predecessor's
path at exactly the window length has its oldest element popped (line 76).
The input distribution is never written (see C10). -/
theorem step_mutates_path_boundedly (vit : Viterbi) (candidates : List Nat)
    (em : Nat → Rat) (V0 : Option (PDict Rat)) (path : PDict (List Nat))
    (r : StepResult) (h : vit.step candidates em V0 path = .ok r) :
    pathEvol vit.constraint_length path r.pathF := by
  obtain ⟨nV, nP, pF, hloop, hr⟩ := step_ok_loop h
  have hinv := stepLoop_inv vit (V0.getD vit.priors)
    (fun acc => pathEvol vit.constraint_length path acc.2.2 ∧
                SpecPaths vit.constraint_length path acc.2.1)
    (fun te acc acc' hb hP => stepBody_paths vit _ path te acc acc' hb hP)
    _ ([], [], path) (nV, nP, pF) hloop
    ⟨fun s => Or.inl rfl, fun t l ht => by simp [dget] at ht⟩
  rw [hr]
  exact hinv.1

/-- Witness for C3 at a concrete run. -/
theorem step_mutates_path_boundedly_witness :
    pathEvol 10 [] [(0, [])] :=
  step_mutates_path_boundedly vitLoop [0] (fun _ => 1) none []
    ⟨[(0, 1)], [(0, [0])], [(0, [])], [(0, 1)]⟩ (by decide)

/-- C4 counterexample: construction does not fail on a malformed graph: a
transition probability of `5`, outside `(0,1]`, is accepted silently, the
engine stores the graph unchanged, and decoding proceeds (a `step` on the
resulting engine returns normally) -- no error of any kind is raised. -/
theorem mkViterbi_accepts_invalid_probability :
    ¬ ((5 : Rat) ≤ 1) ∧
    (mkViterbi [(0, [(0, 5)])] none 10 smallVdefault).hmm = [(0, [(0, 5)])] ∧
    ((mkViterbi [(0, [(0, 5)])] none 10 smallVdefault).step [0] (fun _ => 1)
      none []).isOk = true := by
  refine ⟨by decide, by decide, by decide⟩

/-- C4 (amended): construction never fails and validates nothing: it is a
total function with no error path (no `ConfigurationError` exists in the
code).  Even an empty graph with absent or empty priors succeeds, because
the division `1.0 / len(self.hmm)` of the uniform default sits inside the
per-state loop, which runs zero times, leaving the priors empty; and the
supplied graph is stored unchanged, malformed probabilities included. -/
theorem mkViterbi_never_fails (hmm : PDict (List (Nat × Rat)))
    (priors : Option (PDict Rat)) (cl : Nat) (sv : Rat) :
    (mkViterbi [] priors cl sv).priors = priors.getD [] ∧
    (mkViterbi hmm priors cl sv).hmm = hmm := by
  constructor
  · cases priors with
    | none => rfl
    | some p =>
      by_cases hp : p = []
      · subst hp; rfl
      · simp [mkViterbi, hp]
  · cases priors with
    | none => rfl
    | some p =>
      by_cases hp : p = []
      · subst hp; rfl
      · simp [mkViterbi, hp]

/-- C5 counterexample: the two predecessor-iteration strategies differ when
the distribution holds a state with non-positive mass: for `V = {0: 0.0}`
and reverse-index entry `{0: 1}`, iterating the reverse index (which filters
`V[from] > 0`, line 56) yields nothing, while iterating `V` (which does not,
lines 59-60) yields `(0, 1)`. -/
theorem predecessor_strategies_differ :
    predsByIncoming [(0, 1)] [(0, 0)] = [] ∧
    predsByV [(0, 1)] [(0, 0)] = [(0, 1)] := by
  constructor
  · decide
  · decide

/-- C5 (amended): the two predecessor-iteration strategies yield the same
set of `(predecessor, transition probability)` pairs whenever every state in
the current distribution has strictly positive mass; only then is the size
comparison of line 53 a pure optimization. -/
theorem predecessor_strategies_agree (inc V : PDict Rat)
    (hpos : ∀ e ∈ V, 0 < e.2) :
    ∀ f p, (f, p) ∈ predsByIncoming inc V ↔ (f, p) ∈ predsByV inc V := by
  intro f p
  constructor
  · intro h
    rw [predsByIncoming, List.mem_filterMap] at h
    obtain ⟨e, he, heq⟩ := h
    by_cases h0 : (dget V e.1).any (fun v => decide (0 < v)) = true
    · rw [if_pos h0] at heq
      cases hi : dget inc e.1 with
      | none => rw [hi] at heq; cases heq
      | some q =>
        rw [hi] at heq
        simp only [Option.map_some'] at heq
        have hpair := Option.some.inj heq
        have hf : e.1 = f := congrArg Prod.fst hpair
        have hq : q = p := congrArg Prod.snd hpair
        cases hv : dget V e.1 with
        | none => rw [hv] at h0; cases h0
        | some v =>
          rw [predsByV, List.mem_filterMap]
          refine ⟨(e.1, v), mem_of_dget hv, ?_⟩
          have hc : dcontains inc e.1 = true := by
            rw [dcontains_eq, hi]; rfl
          rw [if_pos hc, hi]
          simp only [Option.map_some']
          rw [hf, hq]
    · rw [if_neg h0] at heq; cases heq
  · intro h
    rw [predsByV, List.mem_filterMap] at h
    obtain ⟨e, he, heq⟩ := h
    by_cases hc : dcontains inc e.1
    · rw [if_pos hc] at heq
      cases hi : dget inc e.1 with
      | none => rw [hi] at heq; cases heq
      | some q =>
        rw [hi] at heq
        simp only [Option.map_some'] at heq
        have hpair := Option.some.inj heq
        have hf : e.1 = f := congrArg Prod.fst hpair
        have hq : q = p := congrArg Prod.snd hpair
        rw [predsByIncoming, List.mem_filterMap]
        obtain ⟨q2, hq2⟩ := Option.isSome_iff_exists.mp
          (dget_isSome_of_mem (show (e.1, e.2) ∈ V from he))
        refine ⟨(e.1, q), mem_of_dget hi, ?_⟩
        have hq2pos : 0 < q2 := hpos (e.1, q2) (mem_of_dget hq2)
        have hany : (dget V e.1).any (fun v => decide (0 < v)) = true := by
          rw [hq2]
          simpa using hq2pos
        rw [if_pos hany, hi]
        simp only [Option.map_some']
        rw [hf, hq]
    · rw [if_neg hc] at heq; cases heq

/-- Witness for C5 at a concrete positive distribution. -/
theorem predecessor_strategies_agree_witness :
    ((0, (1:Rat)/2) ∈ predsByIncoming [(0, 1/2)] [(0, 1)] ↔
     (0, (1:Rat)/2) ∈ predsByV [(0, 1/2)] [(0, 1)]) :=
  predecessor_strategies_agree [(0, 1/2)] [(0, 1)] (by decide) 0 (1/2)

/-- C6 counterexample: when the priors-reset fires, the distribution
returned by `step` is not always the Prior Distribution: a prior entry below
the small-probability floor is pruned away afterwards (lines 79-81), so with
priors `{0: 1e-12, 1: 1 - 1e-12}` an empty candidate set yields `{1: 1 -
1e-12}`, not the priors. -/
theorem normalize_reset_then_pruned :
    (vitTinyPrior.step [] (fun _ => 1) none []).map (fun r => r.newV)
      = .ok [(1, 999999999999/1000000000000)] ∧
    [(1, (999999999999:Rat)/1000000000000)] ≠ vitTinyPrior.priors := by
  constructor
  · decide
  · decide

/-- C6 (amended): the normalizer resets any zero-total-mass distribution to
the Prior Distribution instead of dividing by zero; and when no candidate
has positive emission probability (the candidate set is empty or every
emission is non-positive) the pre-normalization distribution is empty, so
`step` returns the Prior Distribution with its sub-floor entries pruned
(hence the priors exactly whenever every prior mass is at least the floor)
and an empty path table. -/
theorem step_zero_mass_resets_to_pruned_priors (vit : Viterbi)
    (candidates : List Nat) (em : Nat → Rat) (V0 : Option (PDict Rat))
    (p0 : PDict (List Nat))
    (hnd : (vit.priors.map Prod.fst).Nodup)
    (hem : ∀ c ∈ candidates, ¬ 0 < em c) :
    (∀ W : PDict Rat, (W.map Prod.snd).sum = 0 → vit.normalize W = vit.priors) ∧
    vit.step candidates em V0 p0 =
      .ok ⟨vit.priors.filter (fun e => !decide (e.2 < vit.smallV)), [], p0,
           V0.getD vit.priors⟩ := by
  refine ⟨fun W hW => by simp [Viterbi.normalize, hW], ?_⟩
  have hnz : (candidates.map (fun c => (c, em c))).filter
      (fun se => decide (0 < se.2)) = [] := by
    rw [List.filter_eq_nil_iff]
    intro a ha
    rw [List.mem_map] at ha
    obtain ⟨c, hc, rfl⟩ := ha
    simpa using hem c hc
  have hnorm : vit.normalize [] = vit.priors := by
    simp [Viterbi.normalize]
  simp only [Viterbi.step, hnz, stepLoop, hnorm]
  have hA : (((vit.priors.map Prod.fst).filter
      (fun s => (dget vit.priors s).any
        (fun v => decide (v < vit.smallV)))).foldl ddel vit.priors)
      = vit.priors.filter (fun e => !decide (e.2 < vit.smallV)) := by
    rw [foldl_ddel_eq_filter]
    apply List.filter_congr
    intro e he
    rw [small_contains_eq hnd e he]
  rw [hA, foldl_pathdel_nil]

/-- Witness for C6 at a concrete zero-mass step. -/
theorem step_zero_mass_witness :
    vitPriors0.step [5] (fun _ => 0) none [] =
      .ok ⟨vitPriors0.priors.filter
             (fun e => !decide (e.2 < vitPriors0.smallV)), [], [],
           (none : Option (PDict Rat)).getD vitPriors0.priors⟩ :=
  (step_zero_mass_resets_to_pruned_priors vitPriors0 [5] (fun _ => 0) none []
    (by decide) (by decide)).2

/-- C7: if every path in the input path table has length at most
`constraint_length`, then every path in the table returned by a successful
`step` also has length at most `constraint_length`: the oldest element is
dropped (line 76) before appending once a path reaches the window length. -/
theorem step_window_bound (vit : Viterbi) (candidates : List Nat)
    (em : Nat → Rat) (V0 : Option (PDict Rat)) (path : PDict (List Nat))
    (r : StepResult) (h : vit.step candidates em V0 path = .ok r)
    (hin : ∀ s l, dget path s = some l → l.length ≤ vit.constraint_length) :
    ∀ s l, dget r.newPath s = some l → l.length ≤ vit.constraint_length := by
  obtain ⟨nV, nP, pF, hloop, hr⟩ := step_ok_loop h
  have hinv := stepLoop_inv vit (V0.getD vit.priors)
    (fun acc => LenBound vit.constraint_length acc.2.2 ∧
                LenBound vit.constraint_length acc.2.1)
    (fun te acc acc' hb hP => stepBody_lenBound vit _ te acc acc' hb hP)
    _ ([], [], path) (nV, nP, pF) hloop ⟨hin, fun s l ht => by simp [dget] at ht⟩
  intro s l ht
  rw [hr] at ht
  exact hinv.2 s l (dget_prune_subset _ nP s l ht)

/-- Witness for C7 at a concrete run. -/
theorem step_window_bound_witness : ([0] : List Nat).length ≤ 10 :=
  step_window_bound vitLoop [0] (fun _ => 1) none []
    ⟨[(0, 1)], [(0, [0])], [(0, [])], [(0, 1)]⟩ (by decide)
    (fun s l hl => by simp [dget] at hl) 0 [0] (by decide)

/-- C8 counterexample: with `constraint_length = 0`, `step` does not return
normally: the truncation rule executes `path[max_from].pop(0)` on an empty
list (lines 73-76) and raises `IndexError` as soon as any candidate scores. -/
theorem step_indexerror_zero_window :
    vitZeroWindow.constraint_length = 0 ∧
    vitZeroWindow.step [0] (fun _ => 1) none [] = .error "IndexError" := by
  constructor
  · decide
  · decide

/-- C8 (amended): construction accepts every `constraint_length`, but
`step` is total only for `constraint_length ≥ 1` (given every
positive-emission candidate has a reverse-index entry, the separate C1
failure mode); with `constraint_length = 0` it can raise `IndexError`. -/
theorem step_total_of_pos_window (vit : Viterbi) (candidates : List Nat)
    (em : Nat → Rat) (V0 : Option (PDict Rat)) (p0 : PDict (List Nat))
    (hcl : 1 ≤ vit.constraint_length)
    (hinc : ∀ c ∈ candidates, 0 < em c → (dget vit.incoming c).isSome = true) :
    (vit.step candidates em V0 p0).isOk = true := by
  have hmem : ∀ te ∈ (candidates.map (fun c => (c, em c))).filter
      (fun se => decide (0 < se.2)), (dget vit.incoming te.1).isSome = true := by
    intro te hte
    rw [List.mem_filter] at hte
    obtain ⟨hm, hp⟩ := hte
    rw [List.mem_map] at hm
    obtain ⟨c, hc, rfl⟩ := hm
    exact hinc c hc (by simpa using hp)
  obtain ⟨acc', hloop⟩ := stepLoop_total vit (V0.getD vit.priors) hcl _
    ([], [], p0) hmem
  obtain ⟨nV, nP, pF⟩ := acc'
  simp only [Viterbi.step, hloop, Except.isOk, Except.toBool]

/-- Witness for C8 at a concrete run. -/
theorem step_total_of_pos_window_witness :
    (vitLoop.step [0] (fun _ => 1) none []).isOk = true :=
  step_total_of_pos_window vitLoop [0] (fun _ => 1) none [] (by decide) (by decide)

/-- C9: every path in the table returned by `step` is the
truncate-then-append rule of the spec applied to some predecessor's path *as
recorded before the step began*: in particular, when one predecessor is the
arg-max for two different candidates in the same step, both extensions read
the pre-step path, and neither observes the other's just-computed path or
any intra-step pop. -/
theorem step_extends_prestep_paths (vit : Viterbi) (candidates : List Nat)
    (em : Nat → Rat) (V0 : Option (PDict Rat)) (path : PDict (List Nat))
    (r : StepResult) (h : vit.step candidates em V0 path = .ok r) :
    ∀ t l, dget r.newPath t = some l →
      ∃ f, l = specPathExtension vit.constraint_length (dget path f) t := by
  obtain ⟨nV, nP, pF, hloop, hr⟩ := step_ok_loop h
  have hinv := stepLoop_inv vit (V0.getD vit.priors)
    (fun acc => pathEvol vit.constraint_length path acc.2.2 ∧
                SpecPaths vit.constraint_length path acc.2.1)
    (fun te acc acc' hb hP => stepBody_paths vit _ path te acc acc' hb hP)
    _ ([], [], path) (nV, nP, pF) hloop
    ⟨fun s => Or.inl rfl, fun t l ht => by simp [dget] at ht⟩
  intro t l ht
  rw [hr] at ht
  exact hinv.2 t l (dget_prune_subset _ nP t l ht)

/-- Witness for C9 at a concrete run. -/
theorem step_extends_prestep_paths_witness :
    ∃ f, ([0] : List Nat) = specPathExtension 10 (dget ([] : PDict (List Nat)) f) 0 :=
  step_extends_prestep_paths vitLoop [0] (fun _ => 1) none []
    ⟨[(0, 1)], [(0, [0])], [(0, [])], [(0, 1)]⟩ (by decide) 0 [0] (by decide)

/-- C10: `step` never mutates its input distribution argument `V`: the
source only reads it (lookups, membership tests, `len`, iteration), so the
caller's distribution is unchanged after every call, even though the
path-table argument is not (C3). -/
theorem step_reads_V_only (vit : Viterbi) (candidates : List Nat)
    (em : Nat → Rat) (V : PDict Rat) (path : PDict (List Nat)) (r : StepResult)
    (h : vit.step candidates em (some V) path = .ok r) : r.vF = V := by
  obtain ⟨nV, nP, pF, hloop, hr⟩ := step_ok_loop h
  rw [hr]
  rfl

/-- Witness for C10 at a concrete run. -/
theorem step_reads_V_only_witness :
    (⟨[(0, 1)], [(0, [0])], [(0, [])], [(0, 1)]⟩ : StepResult).vF = [(0, 1)] :=
  step_reads_V_only vitLoop [0] (fun _ => 1) [(0, 1)] []
    ⟨[(0, 1)], [(0, [0])], [(0, [])], [(0, 1)]⟩ (by decide)
